import Mathlib

/-!
Shallow embedding of `src/main.py` ("Eye PDF Watcher"): filename parsing,
the in-memory pending-pair store, PDF emission, the backfill driver, and
the retention sweeper.

Modelling conventions:
* Filenames and paths are `List Char` (`Chars`).  The watcher is scheduled
  non-recursively on a flat input directory, so the basename of an event
  path is the filename itself; paths are therefore modelled as bare
  filenames and `os.path.basename` is the identity on them.
* The Python insertion-ordered `dict` is modelled as an association list with
  unique keys: assignment updates in place or appends, `del` removes the
  (unique) matching entry.
* Filesystem writes are modelled by accumulating `OutputDoc` values;
  image decoding is assumed to succeed (PIL is a black box per the spec).
-/

namespace MFE

abbrev Chars := List Char

/-- Coerce a string literal to the character-list representation. -/
def chars (s : String) : Chars := s.data

/-- Python `str.split('_')`: split on every underscore, keeping empty
tokens; the empty string yields `[""]`. -/
def splitUnd : Chars → List Chars
  | [] => [[]]
  | c :: cs =>
    match splitUnd cs with
    | [] => [[]]
    | t :: ts => if c = '_' then [] :: t :: ts else (c :: t) :: ts

/-- Python `'_'.join`. -/
def joinUnd : List Chars → Chars
  | [] => []
  | [t] => t
  | t :: ts => t ++ '_' :: joinUnd ts

/-- Index of the last `'.'` in a basename, if any. -/
def lastDotIdx (cs : Chars) : Option Nat :=
  ((List.range cs.length).filter (fun i => cs.get? i = some '.')).getLast?

/-- Python `os.path.splitext(fn)[0]` for a basename with no directory
separators: split at the last dot unless every character before it is a
dot (leading dots do not start an extension). -/
def splitextStem (cs : Chars) : Chars :=
  match lastDotIdx cs with
  | none => cs
  | some i =>
    if (List.range i).all (fun j => cs.get? j = some '.') then cs
    else cs.take i

/-- Python `str.lower()` (ASCII suffices for the extensions involved). -/
def lowerChars (cs : Chars) : Chars := cs.map Char.toLower

/-- Transcribes `event.src_path.lower().endswith((".jpg", ".jpeg", ".png"))`
from `EyeHandler.on_created` (src/main.py line 68). -/
def hasImageExt (cs : Chars) : Bool :=
  (chars ".jpg").isSuffixOf (lowerChars cs)
    || (chars ".jpeg").isSuffixOf (lowerChars cs)
    || (chars ".png").isSuffixOf (lowerChars cs)

/-- Transcribes `fname.lower().endswith((".jpg", ".jpeg", ".png"))` from
`App.backfill` (src/main.py line 188), written out separately so the
live/backfill extension checks can be compared. -/
def hasImageExtBackfill (cs : Chars) : Bool :=
  (chars ".jpg").isSuffixOf (lowerChars cs)
    || (chars ".jpeg").isSuffixOf (lowerChars cs)
    || (chars ".png").isSuffixOf (lowerChars cs)

/-- The side code: token index 3, `'L'` or `'R'`. -/
inductive Eye where
  | L : Eye
  | R : Eye
deriving DecidableEq, Repr

/-- Transcribes `os.path.splitext(fn)[0].split('_')` (src/main.py
line 74 / 190). -/
def fileTokens (fn : Chars) : List Chars := splitUnd (splitextStem fn)

/-- Key extraction of the live path, `EyeHandler._process_file`
(src/main.py lines 74–78): tokens from the stem; reject if fewer than 5
tokens or token 3 is not `R`/`L`; the key joins all tokens but token 3. -/
def extractLive (fn : Chars) : Option (Chars × Eye) :=
  let tokens := fileTokens fn
  if tokens.length < 5 then none
  else
    match tokens.get? 3 with
    | none => none
    | some t =>
      if t = chars "R" then some (joinUnd (tokens.take 3 ++ tokens.drop 4), Eye.R)
      else if t = chars "L" then some (joinUnd (tokens.take 3 ++ tokens.drop 4), Eye.L)
      else none

/-- Key extraction of the backfill path, `App.backfill`
(src/main.py lines 190–194), transcribed separately from the live path. -/
def extractBackfill (fn : Chars) : Option (Chars × Eye) :=
  let tokens := fileTokens fn
  if tokens.length < 5 then none
  else
    match tokens.get? 3 with
    | none => none
    | some t =>
      if t = chars "R" then some (joinUnd (tokens.take 3 ++ tokens.drop 4), Eye.R)
      else if t = chars "L" then some (joinUnd (tokens.take 3 ++ tokens.drop 4), Eye.L)
      else none

/-- One pending entry: the per-key `dict` mapping side code to source
path (`self.pending[key]`). -/
structure Entry where
  l : Option Chars
  r : Option Chars
deriving DecidableEq, Repr

def Entry.empty : Entry := ⟨none, none⟩

/-- Read one side of an entry. -/
def Entry.side (e : Entry) : Eye → Option Chars
  | Eye.L => e.l
  | Eye.R => e.r

/-- Transcribes `self.pending[key][eye] = path`: store a path under a
side code. -/
def setEye (e : Entry) (eye : Eye) (path : Chars) : Entry :=
  match eye with
  | Eye.L => { e with l := some path }
  | Eye.R => { e with r := some path }

/-- Transcribes `'L' in self.pending[key] and 'R' in self.pending[key]`. -/
def Entry.complete (e : Entry) : Bool := e.l.isSome && e.r.isSome

/-- The pending map `defaultdict(dict)`: an insertion-ordered association
list with unique keys. -/
abbrev Pending := List (Chars × Entry)

/-- Reads the `defaultdict`: a missing key yields the empty entry. -/
def lookupP (p : Pending) (k : Chars) : Entry :=
  match p.lookup k with
  | some e => e
  | none => Entry.empty

/-- Python dict assignment: replace the entry in place if the key is
present, otherwise append at the end. -/
def insertP : Pending → Chars → Entry → Pending
  | [], k, e => [(k, e)]
  | (k', e') :: rest, k, e =>
    if k' = k then (k', e) :: rest else (k', e') :: insertP rest k e

/-- Transcribes `del self.pending[key]`: remove the entry with the given
key. -/
def eraseP : Pending → Chars → Pending
  | [], _ => []
  | (k', e') :: rest, k =>
    if k' = k then rest else (k', e') :: eraseP rest k

/-- An emitted PDF: `f"{key}.pdf"` with its pages (source paths) in
order. -/
structure OutputDoc where
  name : Chars
  pages : List Chars
deriving DecidableEq, Repr

/-- State of an `EyeHandler`: the pending map plus the documents written
to the output directory so far. -/
structure EyeState where
  pending : Pending
  outputs : List OutputDoc
deriving DecidableEq, Repr

def initState : EyeState := ⟨[], []⟩

/-- Transcribes `EyeHandler.create_pdf` (src/main.py lines 83–88): read the paths for
sides `('L', 'R')` in that order, write `key.pdf` with those pages, and
delete the key from the pending map.  The code only calls it when both
sides are present; the `getD` defaults are never read in those calls. -/
def create_pdf (st : EyeState) (k : Chars) : EyeState :=
  let e := lookupP st.pending k
  let doc : OutputDoc := ⟨k ++ chars ".pdf", [e.l.getD [], e.r.getD []]⟩
  ⟨eraseP st.pending k, st.outputs ++ [doc]⟩

/-- Transcribes `EyeHandler._process_file` (src/main.py lines 72–81): extract key and
side; on rejection do nothing; otherwise record the path under the side
and, if both sides are now present, emit the PDF. -/
def processFile (st : EyeState) (path : Chars) : EyeState :=
  match extractLive path with
  | none => st
  | some (key, eye) =>
    let e := setEye (lookupP st.pending key) eye path
    let st' : EyeState := ⟨insertP st.pending key e, st.outputs⟩
    if e.complete then create_pdf st' key else st'

/-- Transcribes `EyeHandler.on_created` (src/main.py lines 67–70): ignore
non-image extensions, otherwise process the file.  Directory events are
outside the model (only files are fed in). -/
def on_created (st : EyeState) (path : Chars) : EyeState :=
  if hasImageExt path then processFile st path else st

/-- A sequence of live file-created events. -/
def runEvents (st : EyeState) (paths : List Chars) : EyeState :=
  paths.foldl on_created st

/-- The opposite side code. -/
def Eye.other : Eye → Eye
  | Eye.L => Eye.R
  | Eye.R => Eye.L

/-- Scan step of `App.backfill` (src/main.py lines 186–195): skip
non-image names, run the token checks, and record the path for the side in
the local `pending` map.  Directory entries are outside the model. -/
def backfillScanStep (pending : Pending) (fname : Chars) : Pending :=
  if hasImageExtBackfill fname then
    match extractBackfill fname with
    | none => pending
    | some (key, eye) => insertP pending key (setEye (lookupP pending key) eye fname)
  else pending

/-- First loop of `App.backfill`: fold the scan step over the directory
snapshot, starting from an empty local map. -/
def backfillScan (files : List Chars) : Pending :=
  files.foldl backfillScanStep []

/-- Emission step of `App.backfill` (src/main.py lines 197–201): for a
complete entry, load it into the handler map, call `create_pdf`, and
bump the counter; otherwise leave the singleton alone. -/
def backfillStep (acc : EyeState × Nat) (ke : Chars × Entry) : EyeState × Nat :=
  if ke.2.complete then
    (create_pdf ⟨insertP acc.1.pending ke.1 ke.2, acc.1.outputs⟩ ke.1, acc.2 + 1)
  else acc

/-- Second loop of `App.backfill`: fold the emission step over the scanned
map, with a fresh handler (`EyeHandler(self.output_dir.get())`). -/
def backfillEmit (p : Pending) : EyeState × Nat :=
  p.foldl backfillStep (initState, 0)

/-- Document emitted for a complete scanned entry. -/
def docOf (ke : Chars × Entry) : OutputDoc :=
  ⟨ke.1 ++ chars ".pdf", [ke.2.l.getD [], ke.2.r.getD []]⟩

/-- Core of `App.backfill`: scan the snapshot, then emit each complete
pair; returns the final handler state and the reported pair count. -/
def backfillRun (files : List Chars) : EyeState × Nat :=
  backfillEmit (backfillScan files)

/-- Invariant of the live pending store: unique keys, and no entry with
both sides present survives an operation. -/
def storeInv (st : EyeState) : Prop :=
  (st.pending.map Prod.fst).Nodup ∧ ∀ ke ∈ st.pending, ke.2.complete = false

/-- A file in the output directory: its name and last-modified time in
seconds. -/
structure FsFile where
  name : Chars
  mtime : Int
deriving DecidableEq, Repr

/-- Transcribes `(now - mtime).days`: the Python timedelta normalisation
makes `.days` the floor of the difference in whole days. -/
def ageDays (now : Int) (f : FsFile) : Int :=
  (now - f.mtime).fdiv 86400

/-- Transcribes `fname.lower().endswith('.pdf')` from `remove_old_pdfs`
(src/main.py line 48). -/
def isPdfName (cs : Chars) : Bool :=
  (chars ".pdf").isSuffixOf (lowerChars cs)

/-- Per-file step of `remove_old_pdfs` (src/main.py lines 47–57): skip
non-PDF names; delete the file and count it when its age in whole days
exceeds the threshold, otherwise keep it.  The accumulator is the pair
(files kept in the directory, removed counter); `getmtime`/`remove` are
assumed to succeed (the `except` arm is environment failure, outside the
model). -/
def removeStep (now : Int) (days : Int) (acc : List FsFile × Nat) (f : FsFile) : List FsFile × Nat :=
  if isPdfName f.name then
    if days < ageDays now f then (acc.1, acc.2 + 1) else (acc.1 ++ [f], acc.2)
  else (acc.1 ++ [f], acc.2)

/-- Transcribes `remove_old_pdfs(directory, days=30)` (src/main.py
lines 44–58) over a directory listing: returns the surviving files and
the removed count. -/
def remove_old_pdfs (now : Int) (files : List FsFile) (days : Int) : List FsFile × Nat :=
  files.foldl (removeStep now days) ([], 0)

/-- Deletion condition of the sweeper, as one predicate. -/
def shouldRemove (now : Int) (days : Int) (f : FsFile) : Bool :=
  isPdfName f.name && decide (days < ageDays now f)

/-- The two directory settings the commands read
(`self.input_dir.get()` / `self.output_dir.get()`). -/
structure Config where
  input_dir : Chars
  output_dir : Chars
deriving DecidableEq, Repr

/-- Guard of `App.start_watching` (src/main.py lines 158–161):
`all([self.input_dir.get(), self.output_dir.get()])`, i.e. Python
truthiness of both strings. -/
def start_watching_ok (c : Config) : Bool :=
  !c.input_dir.isEmpty && !c.output_dir.isEmpty

/-- Outcome of the backfill command: either the warning dialog with no
processing, or a completed run with its outputs and reported count. -/
inductive BackfillResult where
  | warned : BackfillResult
  | done : List OutputDoc → Nat → BackfillResult
deriving DecidableEq, Repr

/-- Transcribes `App.backfill` (src/main.py lines 179–202) end to end:
warn and stop when the input directory setting is empty (Python falsy);
otherwise run the reconciliation pass — the output directory setting is
never validated on this path. -/
def backfillCmd (c : Config) (snapshot : List Chars) : BackfillResult :=
  if c.input_dir.isEmpty then BackfillResult.warned
  else BackfillResult.done (backfillRun snapshot).1.outputs (backfillRun snapshot).2

/-! ### Association-list lemmas for the pending map -/

theorem lookupP_insertP_self (p : Pending) (k : Chars) (e : Entry) :
    lookupP (insertP p k e) k = e := by
  induction p with
  | nil => simp [insertP, lookupP, List.lookup]
  | cons hd rest ih =>
    obtain ⟨k', e'⟩ := hd
    by_cases h : k' = k
    · subst h
      simp [insertP, lookupP, List.lookup]
    · have hbf : (k == k') = false := beq_eq_false_iff_ne.mpr (Ne.symm h)
      simpa [insertP, h, lookupP, List.lookup, hbf] using ih

theorem mem_insertP (p : Pending) (k : Chars) (e : Entry) (ke : Chars × Entry)
    (h : ke ∈ insertP p k e) : ke = (k, e) ∨ ke ∈ p := by
  induction p with
  | nil => simpa [insertP] using h
  | cons hd rest ih =>
    obtain ⟨k', e'⟩ := hd
    by_cases hk : k' = k
    · subst hk
      rcases (by simpa [insertP] using h : ke = (k', e) ∨ ke ∈ rest) with h' | h'
      · exact Or.inl h'
      · exact Or.inr (List.mem_cons_of_mem _ h')
    · rcases (by simpa [insertP, hk] using h : ke = (k', e') ∨ ke ∈ insertP rest k e) with h' | h'
      · exact Or.inr (by simp [h'])
      · rcases ih h' with h'' | h''
        · exact Or.inl h''
        · exact Or.inr (List.mem_cons_of_mem _ h'')

theorem mem_keys_insertP (p : Pending) (k : Chars) (e : Entry) (a : Chars)
    (h : a ∈ (insertP p k e).map Prod.fst) : a ∈ p.map Prod.fst ∨ a = k := by
  rcases List.mem_map.1 h with ⟨ke, hke, rfl⟩
  rcases mem_insertP p k e ke hke with rfl | h'
  · exact Or.inr rfl
  · exact Or.inl (List.mem_map_of_mem _ h')

theorem nodup_keys_insertP (p : Pending) (k : Chars) (e : Entry)
    (h : (p.map Prod.fst).Nodup) : ((insertP p k e).map Prod.fst).Nodup := by
  induction p with
  | nil => simp [insertP]
  | cons hd rest ih =>
    obtain ⟨k', e'⟩ := hd
    rw [List.map_cons, List.nodup_cons] at h
    by_cases hk : k' = k
    · subst hk
      rw [show insertP ((k', e') :: rest) k' e = (k', e) :: rest by simp [insertP]]
      rw [List.map_cons, List.nodup_cons]
      exact h
    · rw [show insertP ((k', e') :: rest) k e = (k', e') :: insertP rest k e by
        simp [insertP, hk]]
      rw [List.map_cons, List.nodup_cons]
      refine ⟨fun hmem => ?_, ih h.2⟩
      rcases mem_keys_insertP rest k e k' hmem with h' | h'
      · exact h.1 h'
      · exact hk h'

theorem keys_insertP_of_mem (p : Pending) (k : Chars) (e : Entry)
    (h : k ∈ p.map Prod.fst) : (insertP p k e).map Prod.fst = p.map Prod.fst := by
  induction p with
  | nil => simp at h
  | cons hd rest ih =>
    obtain ⟨k', e'⟩ := hd
    by_cases hk : k' = k
    · subst hk
      simp [insertP]
    · rw [List.map_cons] at h
      rcases List.mem_cons.1 h with h' | h'
      · exact absurd h'.symm hk
      · simp [insertP, hk, ih h']

theorem eraseP_sublist (p : Pending) (k : Chars) : List.Sublist (eraseP p k) p := by
  induction p with
  | nil => simp [eraseP]
  | cons hd rest ih =>
    obtain ⟨k', e'⟩ := hd
    by_cases hk : k' = k
    · rw [show eraseP ((k', e') :: rest) k = rest by simp [eraseP, hk]]
      exact List.sublist_cons_self (k', e') rest
    · rw [show eraseP ((k', e') :: rest) k = (k', e') :: eraseP rest k by
        simp [eraseP, hk]]
      exact List.Sublist.cons₂ (k', e') ih

theorem mem_of_mem_eraseP (p : Pending) (k : Chars) (ke : Chars × Entry)
    (h : ke ∈ eraseP p k) : ke ∈ p :=
  (eraseP_sublist p k).subset h

theorem nodup_keys_eraseP (p : Pending) (k : Chars)
    (h : (p.map Prod.fst).Nodup) : ((eraseP p k).map Prod.fst).Nodup :=
  List.Nodup.sublist ((eraseP_sublist p k).map Prod.fst) h

theorem key_ne_of_mem_eraseP (p : Pending) (k : Chars) (ke : Chars × Entry)
    (hnd : (p.map Prod.fst).Nodup) (h : ke ∈ eraseP p k) : ke.1 ≠ k := by
  induction p with
  | nil => simp [eraseP] at h
  | cons hd rest ih =>
    obtain ⟨k', e'⟩ := hd
    rw [List.map_cons, List.nodup_cons] at hnd
    by_cases hk : k' = k
    · subst hk
      rw [show eraseP ((k', e') :: rest) k' = rest by simp [eraseP]] at h
      intro hke
      have hmem : ke.1 ∈ rest.map Prod.fst := List.mem_map_of_mem Prod.fst h
      rw [hke] at hmem
      exact hnd.1 hmem
    · rw [show eraseP ((k', e') :: rest) k = (k', e') :: eraseP rest k by
        simp [eraseP, hk]] at h
      rcases List.mem_cons.1 h with rfl | h'
      · exact hk
      · exact ih hnd.2 h'

/-! ### Claim theorems -/

/-- C4: key extraction is byte-identical between the live path
(`EyeHandler._process_file` lines 74–78) and the batch path
(`App.backfill` lines 190–194): both the PairKey/side-code computation
and the extension filter agree on every filename. -/
theorem key_extraction_live_eq_backfill :
    ∀ fn : Chars, extractLive fn = extractBackfill fn ∧ hasImageExt fn = hasImageExtBackfill fn :=
  fun _ => ⟨rfl, rfl⟩

/-- C2 as stated is false: for `P1_20240101_S1_L_a.jpg` the derived
PairKey is `P1_20240101_S1_a` (the date token at index 1 is kept, only
the side token at index 3 is dropped), not `P1_S1_a`, and the emitted
document is named `P1_20240101_S1_a.pdf`, not `P1_S1_a.pdf`. -/
theorem pairkey_example_counterexample :
    extractLive (chars "P1_20240101_S1_L_a.jpg") = some (chars "P1_20240101_S1_a", Eye.L)
    ∧ chars "P1_20240101_S1_a" ≠ chars "P1_S1_a"
    ∧ (runEvents initState
          [chars "P1_20240101_S1_L_a.jpg", chars "P1_20240101_S1_R_a.jpg"]).outputs.map
        OutputDoc.name = [chars "P1_20240101_S1_a.pdf"]
    ∧ chars "P1_20240101_S1_a.pdf" ≠ chars "P1_S1_a.pdf" := by
  decide

/-- C2 amended: the files `P1_20240101_S1_L_a.jpg` and
`P1_20240101_S1_R_a.jpg`, arriving in either order, derive the PairKey
`P1_20240101_S1_a` and produce exactly one document named
`P1_20240101_S1_a.pdf` with two pages, the L file first. -/
theorem pairkey_example_end_to_end :
    (runEvents initState
        [chars "P1_20240101_S1_L_a.jpg", chars "P1_20240101_S1_R_a.jpg"]).outputs
      = [⟨chars "P1_20240101_S1_a.pdf",
          [chars "P1_20240101_S1_L_a.jpg", chars "P1_20240101_S1_R_a.jpg"]⟩]
    ∧ (runEvents initState
          [chars "P1_20240101_S1_R_a.jpg", chars "P1_20240101_S1_L_a.jpg"]).outputs
      = [⟨chars "P1_20240101_S1_a.pdf",
          [chars "P1_20240101_S1_L_a.jpg", chars "P1_20240101_S1_R_a.jpg"]⟩] := by
  decide

/-- C1: two valid image filenames sharing a PairKey, carrying sides L
and R, fed to the live path from a fresh handler in either arrival
order, produce exactly one document — `key.pdf` with the L path as the
first page and the R path as the second — and empty the pending store. -/
theorem pair_completion_either_order (f g k : Chars)
    (hef : hasImageExt f = true) (heg : hasImageExt g = true)
    (hf : extractLive f = some (k, Eye.L)) (hg : extractLive g = some (k, Eye.R)) :
    runEvents initState [f, g] = ⟨[], [⟨k ++ chars ".pdf", [f, g]⟩]⟩
    ∧ runEvents initState [g, f] = ⟨[], [⟨k ++ chars ".pdf", [f, g]⟩]⟩ := by
  have h1 : on_created initState f = ⟨[(k, ⟨some f, none⟩)], []⟩ := by
    simp [on_created, hef, processFile, hf, initState, lookupP, List.lookup, setEye,
      Entry.empty, Entry.complete, insertP]
  have h2 : on_created ⟨[(k, ⟨some f, none⟩)], []⟩ g = ⟨[], [⟨k ++ chars ".pdf", [f, g]⟩]⟩ := by
    simp [on_created, heg, processFile, hg, lookupP, List.lookup, setEye, Entry.complete,
      insertP, create_pdf, eraseP, Entry.empty]
  have h3 : on_created initState g = ⟨[(k, ⟨none, some g⟩)], []⟩ := by
    simp [on_created, heg, processFile, hg, initState, lookupP, List.lookup, setEye,
      Entry.empty, Entry.complete, insertP]
  have h4 : on_created ⟨[(k, ⟨none, some g⟩)], []⟩ f = ⟨[], [⟨k ++ chars ".pdf", [f, g]⟩]⟩ := by
    simp [on_created, hef, processFile, hf, lookupP, List.lookup, setEye, Entry.complete,
      insertP, create_pdf, eraseP, Entry.empty]
  constructor
  · show on_created (on_created initState f) g = _
    rw [h1, h2]
  · show on_created (on_created initState g) f = _
    rw [h3, h4]

/-- Witness for C1 at the example pair of filenames. -/
theorem pair_completion_either_order_witness :
    runEvents initState [chars "P1_20240101_S1_L_a.jpg", chars "P1_20240101_S1_R_a.jpg"]
      = ⟨[], [⟨chars "P1_20240101_S1_a" ++ chars ".pdf",
               [chars "P1_20240101_S1_L_a.jpg", chars "P1_20240101_S1_R_a.jpg"]⟩]⟩
    ∧ runEvents initState [chars "P1_20240101_S1_R_a.jpg", chars "P1_20240101_S1_L_a.jpg"]
      = ⟨[], [⟨chars "P1_20240101_S1_a" ++ chars ".pdf",
               [chars "P1_20240101_S1_L_a.jpg", chars "P1_20240101_S1_R_a.jpg"]⟩]⟩ :=
  pair_completion_either_order (chars "P1_20240101_S1_L_a.jpg")
    (chars "P1_20240101_S1_R_a.jpg") (chars "P1_20240101_S1_a")
    (by decide) (by decide) (by decide) (by decide)

/-- One live-path step preserves the pending-store invariant. -/
theorem storeInv_processFile (st : EyeState) (f : Chars) (h : storeInv st) :
    storeInv (processFile st f) := by
  unfold processFile
  cases hx : extractLive f with
  | none => exact h
  | some ke =>
    obtain ⟨k, eye⟩ := ke
    simp only
    by_cases hc : (setEye (lookupP st.pending k) eye f).complete = true
    · rw [if_pos hc]
      unfold create_pdf
      refine ⟨nodup_keys_eraseP _ _ (nodup_keys_insertP _ _ _ h.1), ?_⟩
      intro ke2 hke2
      have hnd := nodup_keys_insertP st.pending k (setEye (lookupP st.pending k) eye f) h.1
      have hne := key_ne_of_mem_eraseP _ _ _ hnd hke2
      have hmem := mem_of_mem_eraseP _ _ _ hke2
      rcases mem_insertP _ _ _ _ hmem with heq | hmem2
      · exact absurd (congrArg Prod.fst heq) hne
      · exact h.2 _ hmem2
    · rw [if_neg hc]
      refine ⟨nodup_keys_insertP _ _ _ h.1, ?_⟩
      intro ke2 hke2
      rcases mem_insertP _ _ _ _ hke2 with heq | hmem2
      · rw [heq]
        exact Bool.eq_false_iff.mpr hc
      · exact h.2 _ hmem2

/-- One live event preserves the pending-store invariant. -/
theorem storeInv_on_created (st : EyeState) (f : Chars) (h : storeInv st) :
    storeInv (on_created st f) := by
  unfold on_created
  by_cases hext : hasImageExt f = true
  · rw [if_pos hext]
    exact storeInv_processFile st f h
  · rw [if_neg hext]
    exact h

/-- Any sequence of live events preserves the pending-store invariant. -/
theorem storeInv_runEvents (st : EyeState) (paths : List Chars) (h : storeInv st) :
    storeInv (runEvents st paths) := by
  induction paths generalizing st with
  | nil => exact h
  | cons p ps ih => exact ih _ (storeInv_on_created st p h)

/-- C5: after any sequence of live events from a fresh handler, each
PairKey occurs at most once in the pending store, and no entry with both
sides present is ever left visible: an entry that becomes complete is
removed in the same `_process_file` step that emits its document. -/
theorem pending_store_invariant (paths : List Chars) :
    ((runEvents initState paths).pending.map Prod.fst).Nodup
    ∧ ∀ ke ∈ (runEvents initState paths).pending, ke.2.complete = false :=
  storeInv_runEvents initState paths ⟨by simp [initState], by simp [initState]⟩

/-- C6: a filename failing the input contract — extension outside the
accepted image set, fewer than five tokens, or token index 3 not a
recognised side code — is a silent no-op on the live path: the handler
state (pending map and outputs alike) is returned unchanged. -/
theorem invalid_filename_noop (st : EyeState) (fn : Chars)
    (h : hasImageExt fn = false
      ∨ (fileTokens fn).length < 5
      ∨ ((fileTokens fn).get? 3 ≠ some (chars "R")
          ∧ (fileTokens fn).get? 3 ≠ some (chars "L"))) :
    on_created st fn = st := by
  rcases h with h | h | h
  · simp [on_created, h]
  · have hx : extractLive fn = none := by
      unfold extractLive
      simp [h]
    by_cases hext : hasImageExt fn = true <;>
      simp [on_created, hext, processFile, hx]
  · have hx : extractLive fn = none := by
      unfold extractLive
      by_cases h5 : (fileTokens fn).length < 5
      · simp [h5]
      · rw [if_neg h5]
        cases hg : (fileTokens fn).get? 3 with
        | none => simp
        | some t =>
          have h1 : ¬ t = chars "R" := fun ht => h.1 (by rw [hg, ht])
          have h2 : ¬ t = chars "L" := fun ht => h.2 (by rw [hg, ht])
          simp [h1, h2]
    by_cases hext : hasImageExt fn = true <;>
      simp [on_created, hext, processFile, hx]

/-- Witness for C6: one rejected filename of each kind leaves a fresh
handler untouched. -/
theorem invalid_filename_noop_witness :
    on_created initState (chars "scan_notes_2024_L_a.txt") = initState
    ∧ on_created initState (chars "a_b.jpg") = initState
    ∧ on_created initState (chars "a_b_c_X_d.jpg") = initState :=
  ⟨invalid_filename_noop initState (chars "scan_notes_2024_L_a.txt") (Or.inl (by decide)),
   invalid_filename_noop initState (chars "a_b.jpg") (Or.inr (Or.inl (by decide))),
   invalid_filename_noop initState (chars "a_b_c_X_d.jpg") (Or.inr (Or.inr (by decide)))⟩

/-- C7: recording a side that is already present for a pending key
overwrites the stored path with the newer one (keep-last), stores the
new path under that side, creates no second entry for the key, and —
the other side being still absent — emits nothing. -/
theorem duplicate_side_overwrites (st : EyeState) (f k : Chars) (eye : Eye)
    (hf : extractLive f = some (k, eye))
    (hmem : k ∈ st.pending.map Prod.fst)
    (hdup : (lookupP st.pending k).side eye ≠ none)
    (hother : (lookupP st.pending k).side eye.other = none) :
    processFile st f = ⟨insertP st.pending k (setEye (lookupP st.pending k) eye f), st.outputs⟩
    ∧ (lookupP (processFile st f).pending k).side eye = some f
    ∧ (processFile st f).pending.map Prod.fst = st.pending.map Prod.fst
    ∧ (processFile st f).outputs = st.outputs := by
  have hc : (setEye (lookupP st.pending k) eye f).complete = false := by
    cases eye with
    | L =>
      simp [Eye.other, Entry.side] at hother
      simp [Entry.complete, setEye, hother]
    | R =>
      simp [Eye.other, Entry.side] at hother
      simp [Entry.complete, setEye, hother]
  have heq : processFile st f
      = ⟨insertP st.pending k (setEye (lookupP st.pending k) eye f), st.outputs⟩ := by
    unfold processFile
    rw [hf]
    simp [hc]
  refine ⟨heq, ?_, ?_, ?_⟩
  · rw [heq]
    show (lookupP (insertP st.pending k (setEye (lookupP st.pending k) eye f)) k).side eye
      = some f
    rw [lookupP_insertP_self]
    cases eye <;> simp [setEye, Entry.side]
  · rw [heq]
    exact keys_insertP_of_mem st.pending k _ hmem
  · rw [heq]

/-- Witness for C7: a second L arrival for an already-pending key
replaces the stored L path, with no emission and no new entry. -/
theorem duplicate_side_overwrites_witness :
    processFile
        ⟨[(chars "A_20240101_B_x", ⟨some (chars "old_A_20240101_B_L_x.jpg"), none⟩)], []⟩
        (chars "A_20240101_B_L_x.jpg")
      = ⟨[(chars "A_20240101_B_x", ⟨some (chars "A_20240101_B_L_x.jpg"), none⟩)], []⟩ := by
  have h := duplicate_side_overwrites
    ⟨[(chars "A_20240101_B_x", ⟨some (chars "old_A_20240101_B_L_x.jpg"), none⟩)], []⟩
    (chars "A_20240101_B_L_x.jpg") (chars "A_20240101_B_x") Eye.L
    (by decide) (by decide) (by decide) (by decide)
  exact h.1.trans (by decide)

/-- Unfolds the backfill emission fold: outputs are the complete entries
in scan order, the counter counts them. -/
theorem backfillEmit_go (p : Pending) (st : EyeState) (n : Nat) :
    (p.foldl backfillStep (st, n)).1.outputs
        = st.outputs ++ (p.filter (fun ke => ke.2.complete)).map docOf
    ∧ (p.foldl backfillStep (st, n)).2
        = n + (p.filter (fun ke => ke.2.complete)).length := by
  induction p generalizing st n with
  | nil => simp
  | cons ke rest ih =>
    rw [List.foldl_cons]
    by_cases hc : ke.2.complete = true
    · rw [show backfillStep (st, n) ke
          = (create_pdf ⟨insertP st.pending ke.1 ke.2, st.outputs⟩ ke.1, n + 1) by
        simp [backfillStep, hc]]
      have houts : (create_pdf ⟨insertP st.pending ke.1 ke.2, st.outputs⟩ ke.1).outputs
          = st.outputs ++ [docOf ke] := by
        unfold create_pdf
        simp [lookupP_insertP_self, docOf]
      obtain ⟨ih1, ih2⟩ := ih (create_pdf ⟨insertP st.pending ke.1 ke.2, st.outputs⟩ ke.1) (n + 1)
      refine ⟨?_, ?_⟩
      · rw [ih1, houts, List.filter_cons]
        simp [hc]
      · rw [ih2, List.filter_cons]
        simp [hc]
        omega
    · rw [show backfillStep (st, n) ke = (st, n) by simp [backfillStep, hc]]
      obtain ⟨ih1, ih2⟩ := ih st n
      refine ⟨?_, ?_⟩
      · rw [ih1, List.filter_cons]
        simp [hc]
      · rw [ih2, List.filter_cons]
        simp [hc]

/-- One backfill scan step preserves uniqueness of keys. -/
theorem nodup_keys_backfillScanStep (p : Pending) (fn : Chars)
    (h : (p.map Prod.fst).Nodup) : ((backfillScanStep p fn).map Prod.fst).Nodup := by
  unfold backfillScanStep
  by_cases hext : hasImageExtBackfill fn = true
  · rw [if_pos hext]
    cases hx : extractBackfill fn with
    | none => exact h
    | some ke =>
      obtain ⟨k, eye⟩ := ke
      exact nodup_keys_insertP _ _ _ h
  · rw [if_neg hext]
    exact h

/-- The backfill scan of any snapshot has unique keys. -/
theorem nodup_keys_backfillScan (files : List Chars) :
    ((backfillScan files).map Prod.fst).Nodup := by
  have hgen : ∀ (fs : List Chars) (p : Pending), (p.map Prod.fst).Nodup →
      ((fs.foldl backfillScanStep p).map Prod.fst).Nodup := by
    intro fs
    induction fs with
    | nil => intro p hp; exact hp
    | cons f rest ih => intro p hp; exact ih _ (nodup_keys_backfillScanStep p f hp)
  exact hgen files [] (by simp)

/-- C3: one backfill run over a directory snapshot emits exactly one
document per key whose scanned entry has both sides, the reported count
equals the number of such keys, and no document is emitted for any
single-sided key (whose file the run never moves or deletes — the code
has no archival step). -/
theorem backfill_processes_complete_pairs (files : List Chars) :
    (backfillRun files).1.outputs
        = ((backfillScan files).filter (fun ke => ke.2.complete)).map docOf
    ∧ (backfillRun files).2
        = ((backfillScan files).filter (fun ke => ke.2.complete)).length
    ∧ ∀ ke ∈ backfillScan files, ke.2.complete = false →
        ∀ d ∈ (backfillRun files).1.outputs, d.name ≠ ke.1 ++ chars ".pdf" := by
  obtain ⟨h1, h2⟩ := backfillEmit_go (backfillScan files) initState 0
  have houts : (backfillRun files).1.outputs
      = ((backfillScan files).filter (fun ke => ke.2.complete)).map docOf := by
    simpa [backfillRun, backfillEmit, initState] using h1
  refine ⟨houts, by simpa [backfillRun, backfillEmit, initState] using h2, ?_⟩
  intro ke hke hkec d hd hname
  rw [houts] at hd
  rcases List.mem_map.1 hd with ⟨ke', hke', hdoc⟩
  have hke'mem : ke' ∈ backfillScan files := List.mem_of_mem_filter hke'
  have hke'c : ke'.2.complete = true := by simpa using List.of_mem_filter hke'
  have hkeq : ke'.1 = ke.1 := by
    have h' : ke'.1 ++ chars ".pdf" = ke.1 ++ chars ".pdf" := by
      have hn : (docOf ke').name = ke'.1 ++ chars ".pdf" := rfl
      rw [hdoc] at hn
      rw [← hn, hname]
    exact List.append_cancel_right h'
  have hinj := List.inj_on_of_nodup_map (nodup_keys_backfillScan files)
  have heq : ke' = ke := hinj hke'mem hke hkeq
  rw [heq, hkec] at hke'c
  exact Bool.false_ne_true hke'c

/-- Unfolds the sweeper fold: kept files are those not matching the
deletion condition, the counter counts the matching ones. -/
theorem removeStep_go (now days : Int) (files : List FsFile) (acc : List FsFile × Nat) :
    files.foldl (removeStep now days) acc
      = (acc.1 ++ files.filter (fun f => !shouldRemove now days f),
         acc.2 + (files.filter (shouldRemove now days)).length) := by
  induction files generalizing acc with
  | nil => simp
  | cons f rest ih =>
    rw [List.foldl_cons]
    by_cases hp : isPdfName f.name = true
    · by_cases ha : days < ageDays now f
      · rw [show removeStep now days acc f = (acc.1, acc.2 + 1) by simp [removeStep, hp, ha]]
        rw [ih]
        have hs : shouldRemove now days f = true := by simp [shouldRemove, hp, ha]
        rw [List.filter_cons, List.filter_cons]
        simp [hs]
        omega
      · rw [show removeStep now days acc f = (acc.1 ++ [f], acc.2) by
          simp [removeStep, hp, ha]]
        rw [ih]
        have hs : shouldRemove now days f = false := by simp [shouldRemove, ha]
        rw [List.filter_cons, List.filter_cons]
        simp [hs]
    · rw [show removeStep now days acc f = (acc.1 ++ [f], acc.2) by simp [removeStep, hp]]
      rw [ih]
      have hs : shouldRemove now days f = false := by simp [shouldRemove, hp]
      rw [List.filter_cons, List.filter_cons]
      simp [hs]

/-- C8: one sweep keeps exactly the files that fail the deletion
condition — lower-cased name ending in `.pdf` and age in whole days
strictly above the threshold — and counts exactly the files meeting it;
concretely, with the default 30-day threshold, a 31-day-old PDF is
deleted, a 29-day-old PDF is retained, and an old non-PDF is untouched. -/
theorem retention_sweep_characterisation (now days : Int) (files : List FsFile) :
    (remove_old_pdfs now files days).1
        = files.filter (fun f => !shouldRemove now days f)
    ∧ (remove_old_pdfs now files days).2
        = (files.filter (shouldRemove now days)).length
    ∧ remove_old_pdfs 0
        [⟨chars "a.pdf", -(31 * 86400)⟩, ⟨chars "b.pdf", -(29 * 86400)⟩,
         ⟨chars "c.txt", -(90 * 86400)⟩] 30
      = ([⟨chars "b.pdf", -(29 * 86400)⟩, ⟨chars "c.txt", -(90 * 86400)⟩], 1) := by
  refine ⟨?_, ?_, by decide⟩
  · rw [remove_old_pdfs, removeStep_go]
    simp
  · rw [remove_old_pdfs, removeStep_go]
    simp

/-- C9 as stated is false: `_process_file` contains no date parsing at
all.  An otherwise-valid filename whose token at index 1 is not a date
is accepted: key extraction succeeds and a pending entry is recorded,
with no failure of any kind. -/
theorem malformed_date_counterexample :
    extractLive (chars "P1_NOTADATE_S1_L_a.jpg")
      = some (chars "P1_NOTADATE_S1_a", Eye.L)
    ∧ on_created initState (chars "P1_NOTADATE_S1_L_a.jpg")
      = ⟨[(chars "P1_NOTADATE_S1_a", ⟨some (chars "P1_NOTADATE_S1_L_a.jpg"), none⟩)], []⟩ := by
  decide

/-- C9 amended: the Key Extractor applies no date-format check; every
filename passing the token-count and side-code checks is accepted,
whatever its token at index 1 contains. -/
theorem no_date_validation (fn : Chars)
    (h5 : ¬ (fileTokens fn).length < 5)
    (hside : (fileTokens fn).get? 3 = some (chars "L")
      ∨ (fileTokens fn).get? 3 = some (chars "R")) :
    (extractLive fn).isSome = true := by
  simp only [extractLive]
  rw [if_neg h5]
  rcases hside with h | h
  · rw [h]
    simp only []
    rw [if_neg (by decide : ¬ chars "L" = chars "R")]
    simp
  · rw [h]
    simp

/-- Witness for the amended C9 at a filename whose date slot holds
arbitrary text. -/
theorem no_date_validation_witness :
    (extractLive (chars "scan_washere_S1_L_b.png")).isSome = true :=
  no_date_validation (chars "scan_washere_S1_L_b.png") (by decide) (Or.inl (by decide))

/-- C10: the backfill command validates only the input-directory
setting — empty input warns and does nothing, non-empty input runs the
reconciliation pass whatever the output setting holds — while
`start_watching` requires both settings to be non-empty. -/
theorem backfill_validates_input_only (c : Config) (files : List Chars) :
    (c.input_dir = [] → backfillCmd c files = BackfillResult.warned)
    ∧ (c.input_dir ≠ [] →
        backfillCmd c files
          = BackfillResult.done (backfillRun files).1.outputs (backfillRun files).2)
    ∧ (start_watching_ok c = true ↔ (c.input_dir ≠ [] ∧ c.output_dir ≠ [])) := by
  refine ⟨?_, ?_, ?_⟩
  · intro h
    simp [backfillCmd, h]
  · intro h
    simp [backfillCmd, h]
  · simp [start_watching_ok]

/-- Witness for C10: empty input warns; input set with output unset
still completes (with the warning path of `start_watching` engaged for
the same configuration). -/
theorem backfill_validates_input_only_witness :
    backfillCmd ⟨[], []⟩ [] = BackfillResult.warned
    ∧ backfillCmd ⟨chars "in", []⟩ [] = BackfillResult.done [] 0
    ∧ start_watching_ok ⟨chars "in", []⟩ = false := by
  refine ⟨(backfill_validates_input_only ⟨[], []⟩ []).1 rfl, ?_, ?_⟩
  · exact ((backfill_validates_input_only ⟨chars "in", []⟩ []).2.1 (by decide)).trans (by decide)
  · have h := (backfill_validates_input_only ⟨chars "in", []⟩ []).2.2
    rw [Bool.eq_false_iff]
    intro htrue
    exact (h.mp htrue).2 rfl

end MFE
